import Mathlib

/-!
Verification of the `gd` terminal diff viewer (Go, `main.go`).

This file gives a shallow embedding of the pure core of the program:
the path tree (`buildTree`, `sortTree`, `flattenTree`), the search filter
(`updateFilter`), the diff layout engine (`groupLines`, `renderSideBySide`,
`renderUnified`, `renderFileDiff`, `renderDiff`, `fitStr`) and the cursor
bookkeeping (`moveCursor`).  Go strings are modelled as Lean `String`
(rune = `Char`); Go `int` is modelled as `Int` where negative values can
occur and as `Nat` where the source only ever handles non-negative values.
-/

/-- Mirror of the Go struct `fileStatus`. -/
structure FileStatus where
  path : String
  staged : Bool
  unstaged : Bool
  untracked : Bool
deriving DecidableEq

/-- Mirror of the Go struct `displayLine` (third revision: `file`, `indent`, `name`). -/
structure DisplayLine where
  file : Option FileStatus
  indent : Nat
  name : String
deriving DecidableEq

/-- Default display line, used only to totalise list indexing (`lines.getD`);
the Go code indexes only in range. -/
def dfltLine : DisplayLine := ⟨none, 0, ""⟩

/-- Mirror of the Go struct `treeNode`.  A `file = none` node is a directory. -/
inductive TreeNode : Type where
  | node (name : String) (file : Option FileStatus) (children : List TreeNode)

def TreeNode.name : TreeNode → String
  | .node nm _ _ => nm

def TreeNode.file : TreeNode → Option FileStatus
  | .node _ f _ => f

def TreeNode.children : TreeNode → List TreeNode
  | .node _ _ cs => cs

/-- Splitting a character list at every separator `'/'`.  Mirrors Go
`strings.Split(path, "/")`: always returns at least one (possibly empty)
segment, and `n` separators yield `n+1` segments. -/
def splitParts : List Char → List (List Char)
  | [] => [[]]
  | c :: cs =>
    match splitParts cs with
    | [] => [[]]
    | seg :: rest =>
      if c = '/' then [] :: seg :: rest
      else (c :: seg) :: rest

/-- Mirror of `strings.Split(f.path, "/")` on a Lean `String`. -/
def splitPath (s : String) : List String :=
  (splitParts s.toList).map String.mk

/-- Linear search for a directory child named `part` (Go: `ch.file == nil &&
ch.name == part`), mirroring the `found` scan in Go `buildTree`: on a hit the
remaining segments are inserted into its children (`sub` is the insertion of
those segments), otherwise a fresh directory node holding them is appended at
the end. -/
def insertChild (forest : List TreeNode) (part : String)
    (sub : List TreeNode → List TreeNode) : List TreeNode :=
  match forest with
  | [] => [.node part none (sub [])]
  | n :: ns =>
    if n.file = none ∧ n.name = part then
      .node n.name n.file (sub n.children) :: ns
    else
      n :: insertChild ns part sub

/-- Insertion of one file into the forest, mirroring the body of the
`for j, part := range parts` loop in Go `buildTree`: the last segment is
appended as a leaf, earlier segments descend into (or append) a directory
node found by name among siblings. -/
def insertPath (forest : List TreeNode) (parts : List String) (f : FileStatus) :
    List TreeNode :=
  match parts with
  | [] => forest
  | [part] => forest ++ [.node part (some f) []]
  | part :: rest => insertChild forest part (fun cs => insertPath cs rest f)

/-- The unsorted forest after all insertions (the loop in Go `buildTree`
before the final `sortTree` call). -/
def insertAll (files : List FileStatus) : List TreeNode :=
  files.foldl (fun forest f => insertPath forest (splitPath f.path) f) []

/-- Mirror of the comparator passed to `sort.Slice` in Go `sortTree`:
directories first, then ascending by name. -/
def nodeLess (a b : TreeNode) : Bool :=
  let aDir := a.file.isNone
  let bDir := b.file.isNone
  if aDir ≠ bDir then aDir else decide (a.name < b.name)

/-- The non-strict order induced by the Go comparator: `a` may come before
`b` exactly when `b` is not strictly less than `a`. -/
def nodeLE (a b : TreeNode) : Prop := nodeLess b a = false

instance : DecidableRel nodeLE := fun a b =>
  inferInstanceAs (Decidable (nodeLess b a = false))

mutual

/-- Recursive sorting of a node's children, mirroring the recursion in Go
`sortTree` (`if n.file == nil { sortTree(n.children) }`).  The recursion into
children is applied before the sibling sort; the order is immaterial since
the comparator only reads `name` and `file`. -/
def sortNode : TreeNode → TreeNode
  | .node nm none cs => .node nm none (List.insertionSort nodeLE (sortEach cs))
  | .node nm (some f) cs => .node nm (some f) cs

/-- Pointwise recursive sorting of each node of a sibling list. -/
def sortEach : List TreeNode → List TreeNode
  | [] => []
  | n :: ns => sortNode n :: sortEach ns

end

/-- Mirror of Go `sortTree` applied to a whole forest.  Go's `sort.Slice`
(an unstable sort by `nodeLess`) is modelled by `List.insertionSort` over the
induced non-strict order; on the sibling lists `buildTree` produces, keys
`(isDir, name)` are distinct, so every correct sort yields this result. -/
def sortTree (ns : List TreeNode) : List TreeNode :=
  List.insertionSort nodeLE (sortEach ns)

/-- Mirror of Go `buildTree`. -/
def buildTree (files : List FileStatus) : List TreeNode :=
  sortTree (insertAll files)

mutual

/-- Display lines contributed by one node: a file node yields one file line,
a directory node yields its header line followed by its flattened children at
`indent + 1` (the body of the loop in Go `flattenTree`). -/
def flattenNode : TreeNode → Nat → List DisplayLine
  | .node nm (some f) _, indent => [⟨some f, indent, nm⟩]
  | .node nm none cs, indent => ⟨none, indent, nm ++ "/"⟩ :: flattenTree cs (indent + 1)

/-- Mirror of Go `flattenTree`. -/
def flattenTree : List TreeNode → Nat → List DisplayLine
  | [], _ => []
  | n :: ns, indent => flattenNode n indent ++ flattenTree ns indent

end

/-- Projection of a display list to its file lines, as `(fileStatus, indent)`
pairs. -/
def fileEntries (lines : List DisplayLine) : List (FileStatus × Nat) :=
  lines.filterMap (fun l => l.file.map (fun f => (f, l.indent)))

/-- Mirror of `strings.ToLower`.  Lean's `Char.toLower` maps the ASCII
range; Go additionally maps non-ASCII letters, which no claim depends on. -/
def goToLower (s : String) : String :=
  String.mk (s.toList.map Char.toLower)

/-- Leading-match test: does `needle` occur at the very start of `hay`? -/
def leadMatch : List Char → List Char → Bool
  | [], _ => true
  | _ :: _, [] => false
  | n :: ns, h :: hs => n = h && leadMatch ns hs

/-- Substring test on rune lists, mirroring `strings.Contains` (the empty
needle is contained in everything). -/
def hasSub (hay needle : List Char) : Bool :=
  match hay with
  | [] => needle.isEmpty
  | c :: t => leadMatch needle (c :: t) || hasSub t needle

/-- Mirror of `strings.Contains` on Lean strings. -/
def strContains (s sub : String) : Bool :=
  hasSub s.toList sub.toList

/-- The per-line substring test of the first loop in Go `updateFilter`:
file lines match on the lowercased full path, directory lines on the
lowercased label.  `q` is the already-lowercased query. -/
def lineMatches (q : String) (l : DisplayLine) : Bool :=
  match l.file with
  | some f => strContains (goToLower f.path) q
  | none => strContains (goToLower l.name) q

/-- The first loop of Go `updateFilter` from running index `i`: an index is
kept when the query is empty or its line passes the substring test. -/
def directIdxAux (q : String) : List DisplayLine → Nat → List Nat
  | [], _ => []
  | l :: ls, i =>
    if q = "" ∨ lineMatches q l then i :: directIdxAux q ls (i + 1)
    else directIdxAux q ls (i + 1)

/-- Indices collected by the first loop of Go `updateFilter`. -/
def directIdx (lines : List DisplayLine) (q : String) : List Nat :=
  directIdxAux q lines 0

/-- The backward walk of Go `updateFilter` (`for j := idx - 1; j >= 0; j--`):
`walkBack lines fIndent start` visits `start - 1, …, 0`, collecting every
directory line whose indent is strictly below the matched file line's indent
`fIndent`, and stops after collecting one at indent 0. -/
def walkBack (lines : List DisplayLine) (fIndent : Nat) : Nat → List Nat
  | 0 => []
  | j + 1 =>
    let l := lines.getD j dfltLine
    if l.file = none ∧ l.indent < fIndent then
      if l.indent = 0 then [j] else j :: walkBack lines fIndent j
    else walkBack lines fIndent j

/-- The `dirSet` collection loop of Go `updateFilter`: walk backward from
every directly matched file line (duplicates are removed below, mirroring the
Go set). -/
def walkAll (lines : List DisplayLine) : List Nat → List Nat
  | [] => []
  | idx :: rest =>
    (if (lines.getD idx dfltLine).file.isSome then
      walkBack lines (lines.getD idx dfltLine).indent idx
    else []) ++ walkAll lines rest

/-- Mirror of `sort.Ints`. -/
def sortInts (l : List Nat) : List Nat :=
  List.insertionSort (fun a b => a ≤ b) l

/-- Mirror of Go `updateFilter` (the computation of `m.filtered`; the final
cursor clamp is modelled separately).  The Go code accumulates the ancestor
walk results in a map and appends the unseen ones in map-iteration order
before `sort.Ints`; since the final sort makes that order irrelevant, the
deduplicated walk results are taken here in first-visit order. -/
def updateFilter (lines : List DisplayLine) (query : String) : List Nat :=
  let q := goToLower query
  let direct := directIdx lines q
  if q = "" then direct
  else
    let dirs := walkAll lines direct
    let extra := dirs.dedup.filter (fun j => ¬ j ∈ direct)
    sortInts (direct ++ extra)

/-- Modelled from the spec's words for comparison with `walkBack` (claim C1):
the backward walk "tracking a shrinking current minimum", adding only
directory lines whose indent is strictly below the running minimum-seen
indent, stopping at indent 0. -/
def specWalkBack (lines : List DisplayLine) : Nat → Nat → List Nat
  | 0, _ => []
  | j + 1, minIndent =>
    let l := lines.getD j dfltLine
    if l.file = none ∧ l.indent < minIndent then
      if l.indent = 0 then [j] else j :: specWalkBack lines j l.indent
    else specWalkBack lines j minIndent

/-- Modelled from the spec: the `dirSet` collection using the shrinking
minimum walk, starting from each matched file line's indent. -/
def specWalkAll (lines : List DisplayLine) : List Nat → List Nat
  | [] => []
  | idx :: rest =>
    (if (lines.getD idx dfltLine).file.isSome then
      specWalkBack lines idx (lines.getD idx dfltLine).indent
    else []) ++ specWalkAll lines rest

/-- Modelled from the spec: the filter described by claim C1 — union of the
direct matches with the shrinking-minimum ancestor walk, deduplicated and
sorted ascending. -/
def specUpdateFilter (lines : List DisplayLine) (query : String) : List Nat :=
  let q := goToLower query
  let direct := directIdx lines q
  if q = "" then direct
  else
    let dirs := specWalkAll lines direct
    let extra := dirs.dedup.filter (fun j => ¬ j ∈ direct)
    sortInts (direct ++ extra)

/-- Mirror of `gitdiff.LineOp`. -/
inductive DiffOp : Type where
  | context
  | del
  | add
deriving DecidableEq

/-- Mirror of the Go struct `lineGroup`. -/
structure LineGroup where
  op : DiffOp
  lines : List String
deriving DecidableEq

/-- Mirror of `expandTabs`: `strings.ReplaceAll(s, "\t", "    ")`. -/
def expandTabs (s : String) : String :=
  String.mk (s.toList.flatMap (fun c => if c = '\t' then [' ', ' ', ' ', ' '] else [c]))

/-- Mirror of `trimLine`: `strings.TrimRight(s, "\n\r")`. -/
def trimLine (s : String) : String :=
  String.mk ((s.toList.reverse.dropWhile (fun c => c = '\n' ∨ c = '\r')).reverse)

/-- Mirror of Go `truncStr`: unchanged when it fits, otherwise the first
`w - 1` runes followed by an ellipsis. -/
def truncStr (s : String) (w : Nat) : String :=
  if s.toList.length ≤ w then s
  else if w ≤ 1 then "…"
  else String.mk (s.toList.take (w - 1)) ++ "…"

/-- Mirror of Go `padStr`: right-pad with spaces to `w` runes. -/
def padStr (s : String) (w : Nat) : String :=
  if w ≤ s.toList.length then s
  else s ++ String.mk (List.replicate (w - s.toList.length) ' ')

/-- Mirror of Go `fitStr`. -/
def fitStr (s : String) (w : Nat) : String :=
  padStr (truncStr s w) w

/-- One step of Go `groupLines`: extend the last group when the operation
matches, otherwise start a new group. -/
def pushLine (groups : List LineGroup) (op : DiffOp) (text : String) : List LineGroup :=
  match groups.getLast? with
  | some g =>
    if g.op = op then groups.dropLast ++ [⟨g.op, g.lines ++ [text]⟩]
    else groups ++ [⟨op, [text]⟩]
  | none => [⟨op, [text]⟩]

/-- Mirror of Go `groupLines`; raw diff lines are `(op, text)` pairs. -/
def groupLines (ls : List (DiffOp × String)) : List LineGroup :=
  ls.foldl (fun gs l => pushLine gs l.1 (expandTabs (trimLine l.2))) []

/-- Background tint of a side-by-side cell, abstracting the `lipgloss` styles
passed to `emitRow` (`delBgSty`, `addBgSty`, and the untinted `ctxStyle`). -/
inductive CellTint : Type where
  | ctx
  | delBg
  | addBg
deriving DecidableEq

/-- The six arguments of one Go `emitRow` call: left line number (0 meaning
blank), left text, left tint, and the same for the right cell. -/
structure SbsRow where
  lNum : Nat
  lText : String
  lTint : CellTint
  rNum : Nat
  rText : String
  rTint : CellTint
deriving DecidableEq

/-- Rows of a context group: same text both sides, both counters advance. -/
def ctxRows : List String → Nat → Nat → List SbsRow
  | [], _, _ => []
  | t :: ts, o, n => ⟨o, t, .ctx, n, t, .ctx⟩ :: ctxRows ts (o + 1) (n + 1)

/-- Rows of a paired modification block (the `for j := 0; j < maxLen` loop of
Go `renderSideBySide`): real content is tinted and numbered on its side, the
shorter side is filled with blank untinted cells.  A standalone delete group
is the `addLines = []` case (Go `addGroup == nil`). -/
def pairRows : List String → List String → Nat → Nat → List SbsRow
  | [], [], _, _ => []
  | l :: ls, r :: rs, o, n => ⟨o, l, .delBg, n, r, .addBg⟩ :: pairRows ls rs (o + 1) (n + 1)
  | l :: ls, [], o, n => ⟨o, l, .delBg, 0, "", .ctx⟩ :: pairRows ls [] (o + 1) n
  | [], r :: rs, o, n => ⟨0, "", .ctx, n, r, .addBg⟩ :: pairRows [] rs o (n + 1)

/-- Rows of a standalone add group (the `case gitdiff.OpAdd` branch). -/
def addRows : List String → Nat → List SbsRow
  | [], _ => []
  | t :: ts, n => ⟨0, "", .ctx, n, t, .addBg⟩ :: addRows ts (n + 1)

/-- The group walk of Go `renderSideBySide` as a list of `emitRow` calls:
a delete group immediately followed by an add group consumes both as one
paired block (`i++` in the Go loop); otherwise groups are emitted alone. -/
def renderRows : List LineGroup → Nat → Nat → List SbsRow
  | [], _, _ => []
  | ⟨.context, ls⟩ :: rest, o, n =>
    ctxRows ls o n ++ renderRows rest (o + ls.length) (n + ls.length)
  | ⟨.add, ls⟩ :: rest, o, n =>
    addRows ls n ++ renderRows rest o (n + ls.length)
  | ⟨.del, ls⟩ :: ⟨.add, as⟩ :: rest2, o, n =>
    pairRows ls as o n ++ renderRows rest2 (o + ls.length) (n + as.length)
  | ⟨.del, ls⟩ :: rest, o, n =>
    pairRows ls [] o n ++ renderRows rest (o + ls.length) n

/-- Mirror of `fmt.Sprintf("%*d", 4, n)`: decimal, right-justified to at
least 4 columns. -/
def fmtNum (n : Nat) : String :=
  String.mk (List.replicate (4 - (toString n).toList.length) ' ') ++ toString n

/-- The visible text written by one Go `emitRow` call (style escape codes
carry no width). -/
def rowToString (colW : Nat) (r : SbsRow) : String :=
  (if 0 < r.lNum then fmtNum r.lNum else "    ") ++ " " ++ fitStr r.lText colW ++
  " │ " ++
  (if 0 < r.rNum then fmtNum r.rNum else "    ") ++ " " ++ fitStr r.rText colW

/-- Mirror of `gitdiff.TextFragment` in the fields the renderer reads. -/
structure TextFragment where
  comment : String
  oldPosition : Nat
  newPosition : Nat
  lines : List (DiffOp × String)
deriving DecidableEq

/-- Mirror of `gitdiff.File` in the fields the renderer reads. -/
structure FileDiff where
  oldName : String
  newName : String
  isBinary : Bool
  fragments : List TextFragment
deriving DecidableEq

/-- Lines of Go `renderSideBySide` for one fragment.  The column width
`(width - 13) / 2` is floored at 10; the function is only reached with
`width ≥ 120`, where the Go and Lean integer divisions agree. -/
def renderSideBySideLines (frag : TextFragment) (width : Int) : List String :=
  let colW : Int := (width - 13) / 2
  let colW := if colW < 10 then 10 else colW
  (renderRows (groupLines frag.lines) frag.oldPosition frag.newPosition).map
    (rowToString colW.toNat)

/-- The per-line loop of Go `renderUnified`. -/
def unifiedLines : List (DiffOp × String) → Nat → Nat → Nat → List String
  | [], _, _, _ => []
  | (op, raw) :: rest, o, n, tw =>
    let text := expandTabs (trimLine raw)
    match op with
    | .context =>
      (fmtNum o ++ " " ++ fmtNum n ++ "   " ++ truncStr text tw) ::
        unifiedLines rest (o + 1) (n + 1) tw
    | .del =>
      (fmtNum o ++ " " ++ "    " ++ " - " ++ truncStr text tw) ::
        unifiedLines rest (o + 1) n tw
    | .add =>
      ("    " ++ " " ++ fmtNum n ++ " + " ++ truncStr text tw) ::
        unifiedLines rest o (n + 1) tw

/-- Mirror of Go `renderUnified` (visible text of each emitted line). -/
def renderUnifiedLines (frag : TextFragment) (width : Int) : List String :=
  let textW := width - 4 * 2 - 4
  let textW := if textW < 10 then 10 else textW
  unifiedLines frag.lines frag.oldPosition frag.newPosition textW.toNat

/-- Displayed filename of Go `renderFileDiff`: `NewName`, else `OldName`. -/
def displayName (f : FileDiff) : String :=
  if f.newName = "" then f.oldName else f.newName

/-- The header before padding: `"── " + name + " "`. -/
def baseHeader (f : FileDiff) : String :=
  "── " ++ displayName f ++ " "

/-- The header line of Go `renderFileDiff`: the base header, extended with
fill dashes only when `width` exceeds its rune length. -/
def headerLine (f : FileDiff) (width : Int) : String :=
  let header := baseHeader f
  let pad : Int := width - header.toList.length
  if 0 < pad then header ++ String.mk (List.replicate pad.toNat '─') else header

/-- Mirror of Go `renderFileDiff` as the list of emitted lines: the header,
then a binary notice, or each fragment's optional comment line followed by
its side-by-side (`width ≥ 120`) or unified layout. -/
def renderFileDiff (f : FileDiff) (width : Int) : List String :=
  headerLine f width ::
    (if f.isBinary then ["  Binary file"]
     else
       f.fragments.flatMap (fun frag =>
         (if frag.comment = "" then [] else [frag.comment]) ++
         (if 120 ≤ width then renderSideBySideLines frag width
          else renderUnifiedLines frag width)))

/-- Concatenation of emitted lines, each terminated by a newline (the Go
renderer writes `'\n'` after every line). -/
def unlines (ls : List String) : String :=
  ls.foldl (fun acc l => acc ++ l ++ "\n") ""

/-- Mirror of Go `renderDiff`.  The collaborator parser `gitdiff.Parse` is
external to this repository and is passed in as a function: `none` models a
parse error, `some files` a successful parse.  On error or zero files the
raw text is returned unchanged; file blocks are separated by a blank line. -/
def renderDiff (parse : String → Option (List FileDiff)) (raw : String)
    (width : Int) : String :=
  let width := if width ≤ 0 then 80 else width
  match parse raw with
  | none => raw
  | some [] => raw
  | some files => String.intercalate "\n" (files.map (fun f => unlines (renderFileDiff f width)))

/-- The navigation fields of the Go `model` read by `moveCursor`. -/
structure NavState where
  filteredLen : Nat
  cursor : Int
  scroll : Int
  height : Int
deriving DecidableEq

/-- Mirror of Go `moveCursor`: clamp the moved cursor into `[0, n-1]`
(no-op when the filtered list is empty), then scroll minimally to keep the
cursor inside the `visibleH = max(height - 2, 1)` window. -/
def moveCursor (m : NavState) (delta : Int) : NavState :=
  let n : Int := m.filteredLen
  if n = 0 then m
  else
    let c := m.cursor + delta
    let c := if c < 0 then 0 else c
    let c := if n ≤ c then n - 1 else c
    let visibleH := m.height - 2
    let visibleH := if visibleH < 1 then 1 else visibleH
    let s := if c < m.scroll then c else m.scroll
    let s := if s + visibleH ≤ c then c - visibleH + 1 else s
    { m with cursor := c, scroll := s }

mutual

/-- Ordering invariant for one node: the children of a directory node are
pairwise ordered by the Go comparator and recursively well-ordered (file
nodes have no children in any built tree, matching the Go recursion guard
`if n.file == nil`). -/
def nodeOrdered : TreeNode → Prop
  | .node _ none cs => List.Pairwise nodeLE cs ∧ forestAll cs
  | .node _ (some _) _ => True

/-- Every node of a sibling list satisfies `nodeOrdered`. -/
def forestAll : List TreeNode → Prop
  | [] => True
  | n :: ns => nodeOrdered n ∧ forestAll ns

end

/-- A forest whose every level is ordered: directories before files,
ascending by name within each category. -/
def forestOrdered (ns : List TreeNode) : Prop :=
  List.Pairwise nodeLE ns ∧ forestAll ns

/-- Concrete input for claim C6's example: paths `["b.txt", "a/x.txt"]`. -/
def exFileB : FileStatus := ⟨"b.txt", false, false, false⟩

def exFileAX : FileStatus := ⟨"a/x.txt", false, false, false⟩

/-- Concrete display list for the claim C1 counterexample: the flattening of
the tree of paths `a/b/x.txt` and `a/c/match.txt`. -/
def exFileX : FileStatus := ⟨"a/b/x.txt", false, false, false⟩

def exFileM : FileStatus := ⟨"a/c/match.txt", false, false, false⟩

def exLinesC1 : List DisplayLine :=
  [⟨none, 0, "a/"⟩, ⟨none, 1, "b/"⟩, ⟨some exFileX, 2, "x.txt"⟩,
   ⟨none, 1, "c/"⟩, ⟨some exFileM, 2, "match.txt"⟩]

/-- Closed form of one row of a paired modification block. -/
def pairRowSpec (dl al : List String) (o n j : Nat) : SbsRow :=
  ⟨if j < dl.length then o + j else 0, dl.getD j "",
   if j < dl.length then .delBg else .ctx,
   if j < al.length then n + j else 0, al.getD j "",
   if j < al.length then .addBg else .ctx⟩

instance : IsTotal TreeNode nodeLE where
  total a b := by
    unfold nodeLE
    cases ha : a.file.isNone <;> cases hb : b.file.isNone <;>
      simp [nodeLess, ha, hb] <;>
      exact le_total _ _

instance : IsTrans TreeNode nodeLE where
  trans a b c hab hbc := by
    unfold nodeLE at hab hbc ⊢
    cases ha : a.file.isNone <;> cases hb : b.file.isNone <;>
        cases hc : c.file.isNone <;>
      simp only [nodeLess, ha, hb, hc, ne_eq, not_true_eq_false, not_false_eq_true,
        if_true, if_false, ite_true, ite_false, decide_eq_false_iff_not, not_lt,
        Bool.false_eq_true, Bool.true_eq_false] at hab hbc ⊢ <;>
      first
      | rfl
      | exact le_trans hab hbc

theorem string_toList_length (s : String) : s.toList.length = s.length := rfl

theorem string_mk_length (l : List Char) : (String.mk l).length = l.length := rfl

theorem string_mk_append (l l' : List Char) :
    String.mk l ++ String.mk l' = String.mk (l ++ l') := rfl

theorem string_eq_mk_toList (s : String) : s = String.mk s.toList := rfl

/-- Claim C9: filtering with the empty query yields the identity index
sequence `0, …, len(lines) - 1`.  (Source: the `q == ""` branch of the first
loop of `updateFilter`, and the `q != ""` guard on the ancestor block.) -/
theorem updateFilter_empty_query (lines : List DisplayLine) :
    updateFilter lines "" = List.range lines.length := by
  have haux : ∀ (ls : List DisplayLine) (i : Nat),
      directIdxAux "" ls i = List.range' i ls.length := by
    intro ls
    induction ls with
    | nil => intro i; rfl
    | cons l ls ih =>
      intro i
      simp [directIdxAux, List.range'_succ, ih]
  have : goToLower "" = "" := rfl
  simp [updateFilter, this, directIdx, haux, List.range_eq_range']

/-- Claim C10: a non-positive width is treated exactly as width 80 by
`renderDiff` (the `if width <= 0 { width = 80 }` guard). -/
theorem renderDiff_nonpos_width (parse : String → Option (List FileDiff))
    (raw : String) (width : Int) (hw : width ≤ 0) :
    renderDiff parse raw width = renderDiff parse raw 80 := by
  have h80 : ¬ (80 : Int) ≤ 0 := by norm_num
  simp only [renderDiff, if_pos hw, if_neg h80]

theorem renderDiff_nonpos_width_witness :
    renderDiff (fun _ => some [⟨"a", "b", false, []⟩]) "raw" (-3) =
      renderDiff (fun _ => some [⟨"a", "b", false, []⟩]) "raw" 80 :=
  renderDiff_nonpos_width (fun _ => some [⟨"a", "b", false, []⟩]) "raw" (-3) (by norm_num)

/-- Claim C8: when the parser fails or yields zero files, `renderDiff`
returns the raw text unchanged. -/
theorem renderDiff_fallback (parse : String → Option (List FileDiff))
    (raw : String) (width : Int)
    (h : parse raw = none ∨ parse raw = some []) :
    renderDiff parse raw width = raw := by
  rcases h with h | h <;> simp [renderDiff, h]

theorem renderDiff_fallback_witness :
    renderDiff (fun _ => none) "not a diff" 50 = "not a diff" :=
  renderDiff_fallback (fun _ => none) "not a diff" 50 (Or.inl rfl)

/-- Claim C7: `moveCursor` is a no-op on an empty visible set; otherwise it
clamps the cursor into `[0, n-1]`, keeps the scroll offset at or below the
cursor, and keeps the cursor inside the `visibleH`-row window starting at the
scroll offset. -/
theorem moveCursor_invariants (m : NavState) (delta : Int) :
    (m.filteredLen = 0 → moveCursor m delta = m) ∧
    (0 < m.filteredLen →
      0 ≤ (moveCursor m delta).cursor ∧
      (moveCursor m delta).cursor ≤ (m.filteredLen : Int) - 1 ∧
      (moveCursor m delta).scroll ≤ (moveCursor m delta).cursor ∧
      (moveCursor m delta).cursor <
        (moveCursor m delta).scroll +
          (if m.height - 2 < 1 then 1 else m.height - 2)) := by
  constructor
  · intro h
    simp [moveCursor, h]
  · intro h
    have hn : ¬ ((m.filteredLen : Int) = 0) := by
      simp only [Int.natCast_eq_zero]
      omega
    simp only [moveCursor, if_neg hn]
    split_ifs <;> simp_all <;> omega

theorem moveCursor_invariants_witness :
    ((5 : Nat) = 0 → moveCursor ⟨5, 2, 0, 10⟩ 7 = ⟨5, 2, 0, 10⟩) ∧
    (0 < (5 : Nat) →
      0 ≤ (moveCursor ⟨5, 2, 0, 10⟩ 7).cursor ∧
      (moveCursor ⟨5, 2, 0, 10⟩ 7).cursor ≤ ((5 : Nat) : Int) - 1 ∧
      (moveCursor ⟨5, 2, 0, 10⟩ 7).scroll ≤ (moveCursor ⟨5, 2, 0, 10⟩ 7).cursor ∧
      (moveCursor ⟨5, 2, 0, 10⟩ 7).cursor <
        (moveCursor ⟨5, 2, 0, 10⟩ 7).scroll +
          (if (10 : Int) - 2 < 1 then 1 else 10 - 2)) :=
  moveCursor_invariants ⟨5, 2, 0, 10⟩ 7

/-- Claim C4: for every in-force column width (`columnWidth ≥ 10`), `fitStr`
yields exactly `columnWidth` runes — over-long text is cut to
`columnWidth - 1` runes plus an ellipsis, shorter text is right-padded with
spaces, both counted in runes. -/
theorem fitStr_exact (s : String) (w : Nat) (hw : 10 ≤ w) :
    (fitStr s w).length = w ∧
    (w < s.length → fitStr s w = String.mk (s.toList.take (w - 1) ++ ['…'])) ∧
    (s.length ≤ w → fitStr s w = String.mk (s.toList ++ List.replicate (w - s.length) ' ')) := by
  have hlen : s.toList.length = s.length := rfl
  by_cases hbig : s.length ≤ w
  · have htr : truncStr s w = s := by
      simp [truncStr, hlen, hbig]
    have hfit : fitStr s w = String.mk (s.toList ++ List.replicate (w - s.length) ' ') := by
      show padStr (truncStr s w) w = _
      rw [htr]
      by_cases heq : w ≤ s.length
      · have h1 : s.length = w := le_antisymm hbig heq
        simp only [padStr, hlen, if_pos heq]
        rw [h1, Nat.sub_self, List.replicate_zero, List.append_nil]
        exact string_eq_mk_toList s
      · simp only [padStr, hlen, if_neg heq]
        rfl
    refine ⟨?_, fun hcontra => absurd hbig (by omega), fun _ => hfit⟩
    rw [hfit, string_mk_length]
    simp only [List.length_append, hlen, List.length_replicate]
    omega
  · push_neg at hbig
    have hw1 : ¬ w ≤ 1 := by omega
    have htr2 : truncStr s w = String.mk (s.toList.take (w - 1) ++ ['…']) := by
      simp only [truncStr, hlen]
      rw [if_neg (by omega), if_neg hw1]
      rfl
    have hlen2 : (truncStr s w).toList.length = w := by
      rw [htr2]
      show (s.toList.take (w - 1) ++ ['…']).length = w
      simp only [List.length_append, List.length_take, hlen, List.length_singleton]
      omega
    have hpad : padStr (truncStr s w) w = truncStr s w := by
      simp only [padStr, hlen2, le_refl, if_pos]
    have hfit : fitStr s w = String.mk (s.toList.take (w - 1) ++ ['…']) := by
      show padStr (truncStr s w) w = _
      rw [hpad, htr2]
    refine ⟨?_, fun _ => hfit, fun hcontra => absurd hbig (by omega)⟩
    rw [hfit, string_mk_length]
    simp only [List.length_append, List.length_take, hlen, List.length_singleton]
    omega

theorem fitStr_exact_witness :
    (fitStr "hello wide world" 10).length = 10 ∧
    (10 < ("hello wide world" : String).length →
      fitStr "hello wide world" 10 =
        String.mk (("hello wide world" : String).toList.take (10 - 1) ++ ['…'])) ∧
    (("hello wide world" : String).length ≤ 10 →
      fitStr "hello wide world" 10 =
        String.mk (("hello wide world" : String).toList ++
          List.replicate (10 - ("hello wide world" : String).length) ' ')) :=
  fitStr_exact "hello wide world" 10 (by norm_num)

/-- Claim C3, counterexample: `renderFileDiff` does not truncate the header,
so with a 100-rune filename the first emitted line of a width-80 rendering is
104 runes wide, not 80. -/
theorem renderFileDiff_header_not_width :
    ((renderFileDiff ⟨"", String.mk (List.replicate 100 'a'), false, []⟩ 80).headD "").length ≠ 80 := by
  decide

/-- Claim C3 as amended: the first line of `renderFileDiff` is always the
header built from the display filename (`new name` if present, else
`old name`), and its rune width is `max width (len("── " + name + " "))` —
exactly `width` whenever the unpadded header fits, wider otherwise (the fill
only pads, never truncates). -/
theorem renderFileDiff_header (f : FileDiff) (width : Int) :
    (renderFileDiff f width).head? = some (headerLine f width) ∧
    (∃ fill : String, headerLine f width = baseHeader f ++ fill ∧
      ∀ c ∈ fill.toList, c = '─') ∧
    ((headerLine f width).length : Int) = max width ((baseHeader f).length : Int) := by
  refine ⟨rfl, ?_, ?_⟩
  · simp only [headerLine]
    by_cases hpad : 0 < width - ((baseHeader f).toList.length : Int)
    · rw [if_pos hpad]
      refine ⟨String.mk (List.replicate (width - ((baseHeader f).toList.length : Int)).toNat '─'),
        rfl, ?_⟩
      intro c hc
      exact List.eq_of_mem_replicate hc
    · rw [if_neg hpad]
      exact ⟨"", (String.append_empty _).symm, by simp⟩
  · simp only [headerLine]
    have hlen : (baseHeader f).toList.length = (baseHeader f).length := rfl
    by_cases hpad : 0 < width - ((baseHeader f).toList.length : Int)
    · rw [if_pos hpad]
      have : (baseHeader f ++ String.mk (List.replicate (width - ((baseHeader f).toList.length : Int)).toNat '─')).length
          = (baseHeader f).length + (width - ((baseHeader f).toList.length : Int)).toNat := by
        simp [String.length_append, string_mk_length]
      rw [this]
      rw [hlen] at hpad ⊢
      omega
    · rw [if_neg hpad]
      rw [hlen] at hpad
      omega

theorem pairRows_eq_map :
    ∀ (dl al : List String) (o n : Nat),
      pairRows dl al o n =
        (List.range (max dl.length al.length)).map (pairRowSpec dl al o n)
  | [], [], o, n => by simp [pairRows]
  | l :: ls, r :: rs, o, n => by
    rw [pairRows, pairRows_eq_map ls rs (o + 1) (n + 1)]
    simp only [List.length_cons, Nat.succ_max_succ, List.range_succ_eq_map,
      List.map_cons, List.map_map]
    congr 1
    · simp [pairRowSpec]
    · apply List.map_congr_left
      intro j _
      by_cases hj1 : j < ls.length <;> by_cases hj2 : j < rs.length <;>
        simp [pairRowSpec, hj1, hj2, Nat.succ_lt_succ_iff, List.getD_cons_succ] <;>
        omega
  | l :: ls, [], o, n => by
    rw [pairRows, pairRows_eq_map ls [] (o + 1) n]
    simp only [List.length_cons, List.length_nil, Nat.max_zero,
      List.range_succ_eq_map, List.map_cons, List.map_map]
    congr 1
    · simp [pairRowSpec]
    · apply List.map_congr_left
      intro j _
      by_cases hj1 : j < ls.length <;>
        simp [pairRowSpec, hj1, Nat.succ_lt_succ_iff, List.getD_cons_succ] <;>
        omega
  | [], r :: rs, o, n => by
    rw [pairRows, pairRows_eq_map [] rs o (n + 1)]
    simp only [List.length_cons, List.length_nil, Nat.zero_max,
      List.range_succ_eq_map, List.map_cons, List.map_map]
    congr 1
    · simp [pairRowSpec]
    · apply List.map_congr_left
      intro j _
      by_cases hj2 : j < rs.length <;>
        simp [pairRowSpec, hj2, Nat.succ_lt_succ_iff, List.getD_cons_succ] <;>
        omega

/-- Claim C2: a delete group immediately followed by an add group is rendered
as exactly `max(len(deleteLines), len(addLines))` rows; row `j` carries
`deleteLines[j]` with its old line number and delete tint on the left exactly
when `j < len(deleteLines)` (else a blank, unnumbered, untinted left cell),
and symmetrically for the add lines on the right; the add group is consumed
by the pairing, and rendering continues with the remaining groups (it is not
emitted again standalone). -/
theorem renderSideBySide_pairedBlock (dl al : List String) (rest : List LineGroup)
    (o n : Nat) :
    renderRows (⟨.del, dl⟩ :: ⟨.add, al⟩ :: rest) o n =
      (List.range (max dl.length al.length)).map (fun j =>
        ⟨if j < dl.length then o + j else 0, dl.getD j "",
         if j < dl.length then .delBg else .ctx,
         if j < al.length then n + j else 0, al.getD j "",
         if j < al.length then .addBg else .ctx⟩) ++
      renderRows rest (o + dl.length) (n + al.length) := by
  rw [renderRows, pairRows_eq_map]
  rfl

theorem flattenTree_append (as bs : List TreeNode) (d : Nat) :
    flattenTree (as ++ bs) d = flattenTree as d ++ flattenTree bs d := by
  induction as with
  | nil => simp [flattenTree]
  | cons n ns ih => simp [flattenTree, ih]

theorem fileEntries_append (a b : List DisplayLine) :
    fileEntries (a ++ b) = fileEntries a ++ fileEntries b :=
  List.filterMap_append a b _

theorem flattenTree_eq_flatten (ns : List TreeNode) (d : Nat) :
    flattenTree ns d = (ns.map (fun n => flattenNode n d)).flatten := by
  induction ns with
  | nil => rfl
  | cons n ns ih => simp [flattenTree, ih]

theorem fe_flatten_perm {ns ms : List TreeNode} (h : ns.Perm ms) (d : Nat) :
    (fileEntries (flattenTree ns d)).Perm (fileEntries (flattenTree ms d)) := by
  rw [flattenTree_eq_flatten ns d, flattenTree_eq_flatten ms d]
  exact ((h.map _).flatten).filterMap _

theorem splitParts_ne_nil (l : List Char) : splitParts l ≠ [] := by
  cases l with
  | nil => simp [splitParts]
  | cons c cs =>
    simp only [splitParts]
    cases h : splitParts cs with
    | nil => simp
    | cons seg rest =>
      by_cases hc : c = '/' <;> simp [hc]

theorem splitPath_ne_nil (s : String) : splitPath s ≠ [] := by
  simp only [splitPath, ne_eq, List.map_eq_nil_iff]
  exact splitParts_ne_nil s.toList


theorem fileEntries_dirCons (d : Nat) (nm : String) (A : List DisplayLine) :
    fileEntries (⟨none, d, nm⟩ :: A) = fileEntries A := by
  simp [fileEntries]

theorem fe_insertPath :
    ∀ (parts : List String) (forest : List TreeNode) (f : FileStatus) (d : Nat),
      parts ≠ [] →
      (fileEntries (flattenTree (insertPath forest parts f) d)).Perm
        ((f, d + parts.length - 1) :: fileEntries (flattenTree forest d))
  | [], _, _, _, h => absurd rfl h
  | [p], forest, f, d, _ => by
    show (fileEntries (flattenTree (forest ++ [.node p (some f) []]) d)).Perm _
    rw [flattenTree_append, fileEntries_append]
    have h1 : fileEntries (flattenTree [.node p (some f) []] d) = [(f, d)] := rfl
    rw [h1]
    simpa using List.perm_append_singleton (f, d) _
  | p :: q :: rest, forest, f, d, _ => by
    have hlen : d + (p :: q :: rest).length - 1 = d + (q :: rest).length := by
      simp [List.length_cons]
    rw [hlen]
    show (fileEntries (flattenTree
        (insertChild forest p (fun cs => insertPath cs (q :: rest) f)) d)).Perm _
    induction forest with
    | nil =>
      have hinner := fe_insertPath (q :: rest) [] f (d + 1) (by simp)
      have hl2 : (d + 1) + (q :: rest).length - 1 = d + (q :: rest).length := by
        simp only [List.length_cons]
        omega
      rw [hl2] at hinner
      have e1 : flattenTree (insertChild [] p (fun cs => insertPath cs (q :: rest) f)) d =
          ⟨none, d, p ++ "/"⟩ :: flattenTree (insertPath [] (q :: rest) f) (d + 1) ++ [] := rfl
      rw [e1, fileEntries_append, fileEntries_dirCons]
      have e2 : fileEntries (flattenTree ([] : List TreeNode) d) = [] := rfl
      rw [e2]
      have e3 : fileEntries (flattenTree ([] : List TreeNode) (d + 1)) = [] := rfl
      rw [e3] at hinner
      have e4 : fileEntries ([] : List DisplayLine) = [] := rfl
      rw [e4, List.append_nil]
      exact hinner
    | cons n ns ih =>
      cases n with
      | node nm fo cs =>
        show (fileEntries (flattenTree
            (if fo = none ∧ nm = p then
              TreeNode.node nm fo (insertPath cs (q :: rest) f) :: ns
            else TreeNode.node nm fo cs ::
              insertChild ns p (fun cs => insertPath cs (q :: rest) f)) d)).Perm _
        by_cases hn : fo = none ∧ nm = p
        · rw [if_pos hn]
          obtain ⟨hfile, _⟩ := hn
          subst hfile
          have hinner := fe_insertPath (q :: rest) cs f (d + 1) (by simp)
          have hl2 : (d + 1) + (q :: rest).length - 1 = d + (q :: rest).length := by
            simp only [List.length_cons]
            omega
          rw [hl2] at hinner
          have e1 : flattenTree
              (TreeNode.node nm none (insertPath cs (q :: rest) f) :: ns) d =
              (⟨none, d, nm ++ "/"⟩ ::
                flattenTree (insertPath cs (q :: rest) f) (d + 1)) ++
              flattenTree ns d := rfl
          have e2 : flattenTree (TreeNode.node nm none cs :: ns) d =
              (⟨none, d, nm ++ "/"⟩ :: flattenTree cs (d + 1)) ++
              flattenTree ns d := rfl
          rw [e1, e2, fileEntries_append, fileEntries_append,
            fileEntries_dirCons, fileEntries_dirCons]
          exact hinner.append_right _
        · rw [if_neg hn]
          have e1 : flattenTree (TreeNode.node nm fo cs ::
              insertChild ns p (fun cs => insertPath cs (q :: rest) f)) d =
              flattenNode (.node nm fo cs) d ++
              flattenTree (insertChild ns p (fun cs => insertPath cs (q :: rest) f)) d := rfl
          have e2 : flattenTree (TreeNode.node nm fo cs :: ns) d =
              flattenNode (.node nm fo cs) d ++ flattenTree ns d := rfl
          rw [e1, e2, fileEntries_append, fileEntries_append]
          exact (ih.append_left _).trans List.perm_middle

theorem fe_insertAll_aux :
    ∀ (files : List FileStatus) (acc : List TreeNode),
      (fileEntries (flattenTree
        (files.foldl (fun forest f => insertPath forest (splitPath f.path) f) acc) 0)).Perm
        (fileEntries (flattenTree acc 0) ++
          files.map (fun f => (f, (splitPath f.path).length - 1)))
  | [], acc => by simp
  | f :: fs, acc => by
    rw [List.foldl_cons]
    refine (fe_insertAll_aux fs (insertPath acc (splitPath f.path) f)).trans ?_
    have hstep := fe_insertPath (splitPath f.path) acc f 0 (splitPath_ne_nil f.path)
    rw [Nat.zero_add] at hstep
    refine (hstep.append_right _).trans ?_
    rw [List.map_cons]
    exact List.perm_middle.symm

mutual

theorem fe_sortNode :
    ∀ (n : TreeNode) (d : Nat),
      (fileEntries (flattenNode (sortNode n) d)).Perm (fileEntries (flattenNode n d))
  | .node nm none cs, d => by
    have e1 : flattenNode (sortNode (.node nm none cs)) d =
        ⟨none, d, nm ++ "/"⟩ ::
          flattenTree (List.insertionSort nodeLE (sortEach cs)) (d + 1) := rfl
    have e2 : flattenNode (.node nm none cs) d =
        ⟨none, d, nm ++ "/"⟩ :: flattenTree cs (d + 1) := rfl
    rw [e1, e2, fileEntries_dirCons, fileEntries_dirCons]
    refine (fe_flatten_perm (List.perm_insertionSort nodeLE (sortEach cs)) (d + 1)).trans ?_
    exact fe_sortEach cs (d + 1)
  | .node nm (some f) cs, d => by
    have e1 : sortNode (.node nm (some f) cs) = .node nm (some f) cs := rfl
    rw [e1]

theorem fe_sortEach :
    ∀ (ns : List TreeNode) (d : Nat),
      (fileEntries (flattenTree (sortEach ns) d)).Perm (fileEntries (flattenTree ns d))
  | [], _ => List.Perm.refl _
  | n :: ns, d => by
    have e1 : flattenTree (sortEach (n :: ns)) d =
        flattenNode (sortNode n) d ++ flattenTree (sortEach ns) d := rfl
    have e2 : flattenTree (n :: ns) d = flattenNode n d ++ flattenTree ns d := rfl
    rw [e1, e2, fileEntries_append, fileEntries_append]
    exact (fe_sortNode n d).append (fe_sortEach ns d)

end

/-- Claim C5: for every non-empty list of changed files, the flattened
display of the built tree has exactly one file line per input file, and each
file line's indent is its path's separator-segment count minus one. -/
theorem flatten_buildTree_fileLines (files : List FileStatus) (hne : files ≠ []) :
    (fileEntries (flattenTree (buildTree files) 0)).Perm
      (files.map (fun f => (f, (splitPath f.path).length - 1))) := by
  have h1 : (fileEntries (flattenTree (buildTree files) 0)).Perm
      (fileEntries (flattenTree (insertAll files) 0)) := by
    refine (fe_flatten_perm (List.perm_insertionSort nodeLE (sortEach (insertAll files))) 0).trans ?_
    exact fe_sortEach (insertAll files) 0
  refine h1.trans ?_
  have h2 := fe_insertAll_aux files []
  simpa using h2

theorem flatten_buildTree_fileLines_witness :
    (fileEntries (flattenTree (buildTree [exFileB, exFileAX]) 0)).Perm
      ([exFileB, exFileAX].map (fun f => (f, (splitPath f.path).length - 1))) :=
  flatten_buildTree_fileLines [exFileB, exFileAX] (by simp)


theorem forestAll_iff (ns : List TreeNode) :
    forestAll ns ↔ ∀ n ∈ ns, nodeOrdered n := by
  induction ns with
  | nil => simp [forestAll]
  | cons n ns ih => simp [forestAll, ih]

theorem forestAll_of_perm {ns ms : List TreeNode} (h : ns.Perm ms)
    (hall : forestAll ns) : forestAll ms := by
  rw [forestAll_iff] at hall ⊢
  exact fun n hn => hall n (h.mem_iff.mpr hn)

mutual

theorem sortNode_ordered : ∀ (n : TreeNode), nodeOrdered (sortNode n)
  | .node nm none cs => by
    show List.Pairwise nodeLE (List.insertionSort nodeLE (sortEach cs)) ∧
      forestAll (List.insertionSort nodeLE (sortEach cs))
    refine ⟨List.sorted_insertionSort nodeLE (sortEach cs), ?_⟩
    exact forestAll_of_perm (List.perm_insertionSort nodeLE (sortEach cs)).symm
      (sortEach_allOrdered cs)
  | .node nm (some f) cs => trivial

theorem sortEach_allOrdered : ∀ (ns : List TreeNode), forestAll (sortEach ns)
  | [] => trivial
  | n :: ns => ⟨sortNode_ordered n, sortEach_allOrdered ns⟩

end

/-- Claim C6: every level of the built tree is ordered directories-first and
ascending by name within each category; `flattenTree` emits a directory
header before its children in pre-order; and the example paths
`["b.txt", "a/x.txt"]` flatten to directory `a/`, indented file `x.txt`,
then file `b.txt`. -/
theorem buildTree_ordered_and_example :
    (∀ files : List FileStatus, forestOrdered (buildTree files)) ∧
    (flattenTree (buildTree [exFileB, exFileAX]) 0 =
      [⟨none, 0, "a/"⟩, ⟨some exFileAX, 1, "x.txt"⟩, ⟨some exFileB, 0, "b.txt"⟩]) ∧
    (∀ (nm : String) (cs ns : List TreeNode) (d : Nat),
      flattenTree (.node nm none cs :: ns) d =
        ⟨none, d, nm ++ "/"⟩ :: (flattenTree cs (d + 1) ++ flattenTree ns d)) := by
  refine ⟨?_, by decide, ?_⟩
  · intro files
    refine ⟨List.sorted_insertionSort nodeLE (sortEach (insertAll files)), ?_⟩
    exact forestAll_of_perm
      (List.perm_insertionSort nodeLE (sortEach (insertAll files))).symm
      (sortEach_allOrdered (insertAll files))
  · intro nm cs ns d
    rfl

theorem goToLower_ne_empty {s : String} (h : s ≠ "") : goToLower s ≠ "" := by
  intro hcontra
  apply h
  have h1 : s.toList.map Char.toLower = [] := congrArg String.data hcontra
  have h2 : s.toList = [] := List.map_eq_nil_iff.mp h1
  exact String.ext (show s.data = "".data from h2)

theorem directIdxAux_matches (q : String) (hq : q ≠ "") :
    ∀ (ls : List DisplayLine) (i j : Nat), j ∈ directIdxAux q ls i →
      i ≤ j ∧ lineMatches q (ls.getD (j - i) dfltLine) = true
  | [], i, j, h => absurd h (by simp [directIdxAux])
  | l :: ls, i, j, h => by
    simp only [directIdxAux] at h
    by_cases hc : q = "" ∨ lineMatches q l = true
    · rw [if_pos hc] at h
      rcases List.mem_cons.mp h with rfl | h2
      · refine ⟨le_refl j, ?_⟩
        rw [Nat.sub_self]
        exact (hc.resolve_left hq)
      · have ih := directIdxAux_matches q hq ls (i + 1) j h2
        refine ⟨le_trans (Nat.le_succ i) ih.1, ?_⟩
        have hji : j - i = (j - (i + 1)) + 1 := by omega
        rw [hji, List.getD_cons_succ]
        exact ih.2
    · rw [if_neg hc] at h
      have ih := directIdxAux_matches q hq ls (i + 1) j h
      refine ⟨le_trans (Nat.le_succ i) ih.1, ?_⟩
      have hji : j - i = (j - (i + 1)) + 1 := by omega
      rw [hji, List.getD_cons_succ]
      exact ih.2

theorem directIdx_matches {lines : List DisplayLine} {q : String} (hq : q ≠ "")
    {j : Nat} (h : j ∈ directIdx lines q) :
    lineMatches q (lines.getD j dfltLine) = true := by
  have := (directIdxAux_matches q hq lines 0 j h).2
  simpa using this

theorem walkBack_mem (lines : List DisplayLine) (fI : Nat) :
    ∀ (start j : Nat), j ∈ walkBack lines fI start →
      j < start ∧ (lines.getD j dfltLine).file = none ∧
        (lines.getD j dfltLine).indent < fI
  | 0, j, h => absurd h (by simp [walkBack])
  | k + 1, j, h => by
    simp only [walkBack] at h
    by_cases h1 : (lines.getD k dfltLine).file = none ∧
        (lines.getD k dfltLine).indent < fI
    · rw [if_pos h1] at h
      by_cases h2 : (lines.getD k dfltLine).indent = 0
      · rw [if_pos h2] at h
        rcases List.mem_singleton.mp h with rfl
        exact ⟨Nat.lt_succ_self j, h1.1, h1.2⟩
      · rw [if_neg h2] at h
        rcases List.mem_cons.mp h with rfl | h3
        · exact ⟨Nat.lt_succ_self j, h1.1, h1.2⟩
        · have ih := walkBack_mem lines fI k j h3
          exact ⟨Nat.lt_succ_of_lt ih.1, ih.2⟩
    · rw [if_neg h1] at h
      have ih := walkBack_mem lines fI k j h
      exact ⟨Nat.lt_succ_of_lt ih.1, ih.2⟩

theorem walkAll_mem (lines : List DisplayLine) :
    ∀ (idxs : List Nat) (j : Nat),
      j ∈ walkAll lines idxs ↔
        ∃ idx ∈ idxs, (lines.getD idx dfltLine).file.isSome = true ∧
          j ∈ walkBack lines (lines.getD idx dfltLine).indent idx
  | [], j => by simp [walkAll]
  | idx :: rest, j => by
    simp only [walkAll, List.mem_append, List.mem_cons]
    rw [walkAll_mem lines rest j]
    by_cases h : (lines.getD idx dfltLine).file.isSome = true
    · simp only [if_pos h]
      constructor
      · rintro (hw | ⟨i, hi, hsome, hw⟩)
        · exact ⟨idx, Or.inl rfl, h, hw⟩
        · exact ⟨i, Or.inr hi, hsome, hw⟩
      · rintro ⟨i, rfl | hi, hsome, hw⟩
        · exact Or.inl hw
        · exact Or.inr ⟨i, hi, hsome, hw⟩
    · simp only [if_neg h]
      constructor
      · rintro (hw | ⟨i, hi, hsome, hw⟩)
        · exact absurd hw (List.not_mem_nil j)
        · exact ⟨i, Or.inr hi, hsome, hw⟩
      · rintro ⟨i, rfl | hi, hsome, hw⟩
        · exact absurd hsome h
        · exact Or.inr ⟨i, hi, hsome, hw⟩

theorem updateFilter_mem (lines : List DisplayLine) (query : String)
    (hq : query ≠ "") (j : Nat) :
    j ∈ updateFilter lines query ↔
      j ∈ directIdx lines (goToLower query) ∨
        j ∈ walkAll lines (directIdx lines (goToLower query)) := by
  have hql : goToLower query ≠ "" := goToLower_ne_empty hq
  simp only [updateFilter, if_neg hql, sortInts]
  rw [(List.perm_insertionSort _ _).mem_iff, List.mem_append, List.mem_filter]
  simp only [List.mem_dedup, decide_eq_true_eq]
  by_cases hd : j ∈ directIdx lines (goToLower query) <;> tauto

/-- Claim C1, counterexample: on the tree `a/b/x.txt`, `a/c/match.txt` with
query `"match"`, the code's result contains index 1 (directory `b/`), which
is neither a direct match nor produced by the spec's shrinking-minimum
ancestor walk (`b/` is not an ancestor of `a/c/match.txt`); hence the result
is not the union the claim describes. -/
theorem updateFilter_not_spec_walk :
    updateFilter exLinesC1 "match" = [0, 1, 3, 4] ∧
    specUpdateFilter exLinesC1 "match" = [0, 3, 4] ∧
    1 ∈ updateFilter exLinesC1 "match" ∧
    ¬ 1 ∈ directIdx exLinesC1 (goToLower "match") ∧
    ¬ 1 ∈ specWalkAll exLinesC1 (directIdx exLinesC1 (goToLower "match")) ∧
    updateFilter exLinesC1 "match" ≠ specUpdateFilter exLinesC1 "match" := by
  refine ⟨by decide, by decide, by decide, by decide, by decide, by decide⟩

/-- Claim C1 as amended: for every non-empty query, the filter's result set
is exactly the union of the direct matches and, for each directly matched
file line, the directory lines found by walking backward from it and adding
every directory line whose indent is strictly below the file line's indent
(a fixed threshold, not a shrinking minimum), stopping once a directory line
at indent 0 has been added; consequently every included directory line
either matches the query itself or lies above an included file line whose
indent is strictly greater. -/
theorem updateFilter_characterization (lines : List DisplayLine) (query : String)
    (hq : query ≠ "") :
    (∀ j, j ∈ updateFilter lines query ↔
      j ∈ directIdx lines (goToLower query) ∨
        ∃ idx ∈ directIdx lines (goToLower query),
          (lines.getD idx dfltLine).file.isSome = true ∧
          j ∈ walkBack lines (lines.getD idx dfltLine).indent idx) ∧
    (∀ j ∈ updateFilter lines query, (lines.getD j dfltLine).file = none →
      lineMatches (goToLower query) (lines.getD j dfltLine) = true ∨
        ∃ idx ∈ updateFilter lines query,
          (lines.getD idx dfltLine).file.isSome = true ∧ j < idx ∧
          (lines.getD j dfltLine).indent < (lines.getD idx dfltLine).indent) := by
  have hmem : ∀ j, j ∈ updateFilter lines query ↔
      j ∈ directIdx lines (goToLower query) ∨
        ∃ idx ∈ directIdx lines (goToLower query),
          (lines.getD idx dfltLine).file.isSome = true ∧
          j ∈ walkBack lines (lines.getD idx dfltLine).indent idx := by
    intro j
    rw [updateFilter_mem lines query hq j, walkAll_mem lines _ j]
  refine ⟨hmem, ?_⟩
  intro j hj _
  rcases (hmem j).mp hj with hd | ⟨idx, hidx, hsome, hw⟩
  · exact Or.inl (directIdx_matches (goToLower_ne_empty hq) hd)
  · right
    have hwb := walkBack_mem lines _ idx j hw
    exact ⟨idx, (hmem idx).mpr (Or.inl hidx), hsome, hwb.1, hwb.2.2⟩

theorem updateFilter_characterization_witness :
    (∀ j, j ∈ updateFilter exLinesC1 "match" ↔
      j ∈ directIdx exLinesC1 (goToLower "match") ∨
        ∃ idx ∈ directIdx exLinesC1 (goToLower "match"),
          (exLinesC1.getD idx dfltLine).file.isSome = true ∧
          j ∈ walkBack exLinesC1 (exLinesC1.getD idx dfltLine).indent idx) ∧
    (∀ j ∈ updateFilter exLinesC1 "match", (exLinesC1.getD j dfltLine).file = none →
      lineMatches (goToLower "match") (exLinesC1.getD j dfltLine) = true ∨
        ∃ idx ∈ updateFilter exLinesC1 "match",
          (exLinesC1.getD idx dfltLine).file.isSome = true ∧ j < idx ∧
          (exLinesC1.getD j dfltLine).indent < (exLinesC1.getD idx dfltLine).indent) :=
  updateFilter_characterization exLinesC1 "match" (by decide)
